import Mathlib

/-!
Verification of the Catalog Synchronization Core.

This file gives a shallow embedding of the parts of the repository that the
spec's claims are about, and proves (or refutes) each claim over that
embedding:

* the last-writer-wins upsert of `PATCH /api/library/[id]/progress`
  (the raw SQL in `src/app/api/library/[id]/progress/route.ts`);
* the client outbox reconciler `SyncReconciler.processOutbox` and its
  per-type action handlers (`src/lib/sync/reconciler.ts`);
* the chapter ingestion engine, crawl scheduler and gap-recovery detector
  (modelled from the spec, since only their tests ship in the tree);
* the clamped follow-count decrement of `removeFromLibrary`
  (`src/lib/actions/library-actions.ts` and the library DELETE route);
* the Prisma soft-delete extension (`prismaClientSingleton`).

Timestamps are modelled as `Int`, ids as `Nat`, chapter numbers as `Rat`
(the database column is a decimal).  Fallible database operations return
`Except Unit`.
-/

/-! ## Progress updates: last-writer-wins read-state (claim C1)

Embedding of the raw upsert in step 8 of the progress PATCH handler:

INSERT INTO user_chapter_reads_v2 ... ON CONFLICT (user_id, chapter_id)
DO UPDATE SET ... WHERE EXCLUDED.updated_at > stored.updated_at
OR (EXCLUDED.updated_at = stored.updated_at
    AND EXCLUDED.server_received_at < stored.server_received_at)
-/

/-- One row of `user_chapter_reads_v2`, and also the shape of the incoming
(`EXCLUDED`) values of the upsert. -/
structure ReadRow where
  is_read : Bool
  updated_at : Int
  read_at : Int
  server_received_at : Int
  device_id : Nat
  source_used_id : Nat
  deriving DecidableEq

/-- The `WHERE` condition of the `DO UPDATE` clause: the incoming
(`EXCLUDED`) row wins over the stored row. -/
def lwwCondition (e s : ReadRow) : Bool :=
  (s.updated_at < e.updated_at) ||
    (e.updated_at == s.updated_at && e.server_received_at < s.server_received_at)

/-- The `DO UPDATE SET` assignment list: every tracked column is taken from
the incoming row; `read_at` is refreshed only when the incoming row marks the
chapter as read (the SQL `CASE`). -/
def overwriteRead (e s : ReadRow) : ReadRow :=
  { is_read := e.is_read
    updated_at := e.updated_at
    device_id := e.device_id
    server_received_at := e.server_received_at
    read_at := if e.is_read then e.updated_at else s.read_at
    source_used_id := e.source_used_id }

/-- The whole upsert for one `(user_id, chapter_id)` key: insert when no row
is stored, otherwise overwrite exactly when the `WHERE` condition holds. -/
def upsertReadRow (e : ReadRow) : Option ReadRow → ReadRow
  | none => e
  | some s => if lwwCondition e s then overwriteRead e s else s

/-! ## Sync reconciler (claims C3, C4, C5, C6)

Embedding of `SyncReconciler.processOutbox` from `src/lib/sync/reconciler.ts`.
The network is an input of the model: the batch endpoint's outcome and, for
each sequentially replayed action, the HTTP status of its response (or a
thrown fetch error).  The requests the reconciler issues are collected in a
trace of `NetCall`s.
-/

inductive ActionType
  | CHAPTER_READ
  | LIBRARY_UPDATE
  | LIBRARY_DELETE
  | LIBRARY_ADD
  | SETTING_UPDATE
  deriving DecidableEq

/-- A queued outbox action (the fields of `SyncAction` the reconciler reads). -/
structure SyncAction where
  id : Nat
  type : ActionType
  timestamp : Int
  retryCount : Nat
  deriving DecidableEq

def MAX_RETRIES : Nat := 5

/-- Modelled from the spec: `SyncOutbox.dequeue` removes a queued action on
confirmed server acceptance (the outbox store itself is not in the tree). -/
def dequeue (outbox : List SyncAction) (i : Nat) : List SyncAction :=
  outbox.filter (fun a => !(a.id == i))

/-- Modelled from the spec: `SyncOutbox.updateRetry` increments a queued
action's retry count on failure. -/
def updateRetry (outbox : List SyncAction) (i : Nat) : List SyncAction :=
  outbox.map (fun a => if a.id == i then { a with retryCount := a.retryCount + 1 } else a)

/-- Outcome of the one batch POST to `/api/sync/replay`: an ok response
carrying per-item results (id, status = success?), or a non-ok response /
thrown fetch error. -/
inductive BatchOutcome
  | ok (results : List (Nat × Bool))
  | err
  deriving DecidableEq

/-- Outcome of one sequential replay request: an HTTP response with a status
code, or a thrown fetch error. -/
inductive SeqOutcome
  | status (code : Nat)
  | threw
  deriving DecidableEq

/-- A network request issued by the reconciler during one drain pass. -/
inductive NetCall
  | batchReplay (actions : List SyncAction)
  | seqCall (a : SyncAction)
  deriving DecidableEq

/-- `Response.ok` of the fetch API: status in the 2xx range. -/
def responseOk (code : Nat) : Bool := 200 ≤ code && code < 300

/-- Return value of `SyncReconciler.executeAction` given the HTTP status of
the handler's fetch: `handleChapterRead` accepts ok or 409,
`handleLibraryDelete` accepts ok or 404, the remaining handlers accept only
ok. -/
def executeActionSuccess (t : ActionType) (code : Nat) : Bool :=
  match t with
  | ActionType.CHAPTER_READ => responseOk code || code == 409
  | ActionType.LIBRARY_UPDATE => responseOk code
  | ActionType.LIBRARY_DELETE => responseOk code || code == 404
  | ActionType.LIBRARY_ADD => responseOk code
  | ActionType.SETTING_UPDATE => responseOk code

/-- The loop over the batch endpoint's per-item results: success dequeues
that item, anything else increments that item's retry count. -/
def applyBatchResults (results : List (Nat × Bool)) (outbox : List SyncAction) :
    List SyncAction :=
  results.foldl (fun ob r => if r.2 then dequeue ob r.1 else updateRetry ob r.1) outbox

/-- The sequential replay loop (step 3 of `processOutbox`): actions at or
above the retry ceiling are skipped without a request; otherwise one request
is issued and its outcome dequeues the action or increments its retry count. -/
def processSequential (env : Nat → SeqOutcome) (outbox : List SyncAction) :
    List SyncAction → List SyncAction × List NetCall
  | [] => (outbox, [])
  | a :: rest =>
    if MAX_RETRIES ≤ a.retryCount then
      processSequential env outbox rest
    else
      let ob :=
        match env a.id with
        | SeqOutcome.threw => updateRetry outbox a.id
        | SeqOutcome.status c =>
          if executeActionSuccess a.type c then dequeue outbox a.id
          else updateRetry outbox a.id
      let rec2 := processSequential env ob rest
      (rec2.1, NetCall.seqCall a :: rec2.2)

/-- Ascending-by-timestamp comparison used by the snapshot sort. -/
def tsLe (a b : SyncAction) : Prop := a.timestamp ≤ b.timestamp

instance : DecidableRel tsLe := fun a b => Int.decLe a.timestamp b.timestamp

instance : IsTotal SyncAction tsLe := ⟨fun a b => Int.le_total a.timestamp b.timestamp⟩

instance : IsTrans SyncAction tsLe := ⟨fun _ _ _ h1 h2 => le_trans h1 h2⟩

/-- The snapshot sort: JS `[...actions].sort((a, b) => a.timestamp - b.timestamp)`
is a stable ascending sort by client timestamp (modelled by stable insertion
sort, which computes the same list). -/
def sortByTimestamp (l : List SyncAction) : List SyncAction :=
  l.insertionSort tsLe

/-- The CHAPTER_READ batch phase (step 2 of `processOutbox`): when any
CHAPTER_READ actions are pending, one batch request carries all of them; an
ok response has its per-item results applied, while a non-ok response or a
thrown fetch error increments every batched action's retry count. -/
def batchPhase (batch : BatchOutcome) (outbox chapterReads : List SyncAction) :
    List SyncAction × List NetCall :=
  if chapterReads.isEmpty then (outbox, [])
  else
    match batch with
    | BatchOutcome.ok results =>
      (applyBatchResults results outbox, [NetCall.batchReplay chapterReads])
    | BatchOutcome.err =>
      (chapterReads.foldl (fun ob a => updateRetry ob a.id) outbox,
        [NetCall.batchReplay chapterReads])

/-- One drain pass of `SyncReconciler.processOutbox`: snapshot and sort the
pending actions, send every CHAPTER_READ action as one batch request and
apply its per-item results, then replay the remaining actions sequentially.
Returns the final outbox and the trace of requests issued. -/
def processOutbox (batch : BatchOutcome) (env : Nat → SeqOutcome)
    (outbox : List SyncAction) : List SyncAction × List NetCall :=
  if outbox.isEmpty then (outbox, [])
  else
    let sorted := sortByTimestamp outbox
    let chapterReads := sorted.filter (fun a => a.type == ActionType.CHAPTER_READ)
    let others := sorted.filter (fun a => !(a.type == ActionType.CHAPTER_READ))
    let afterBatch := batchPhase batch outbox chapterReads
    let afterSeq := processSequential env afterBatch.1 others
    (afterSeq.1, afterBatch.2 ++ afterSeq.2)

/-- Per-item semantics of the batch response, as the spec states it: a
success result dequeues exactly that item, a failure result increments
exactly that item's retry count, and an item the response does not mention is
left untouched. -/
def batchFate (results : List (Nat × Bool)) (a : SyncAction) : Option SyncAction :=
  match results.lookup a.id with
  | some true => none
  | some false => some { a with retryCount := a.retryCount + 1 }
  | none => some a

/-! ## Follow-count decrement (claim C9)

Embedding of the raw SQL shared by `removeFromLibrary` and the library DELETE
route: UPDATE series SET total_follows = GREATEST(0, total_follows - 1). -/

/-- The clamped decrement applied to `series.total_follows`. -/
def decrementFollows (n : Int) : Int := max 0 (n - 1)

/-- State touched by a library removal: the user's entries (id, owning
series) and each series' follow counter. -/
structure LibState where
  entries : List (Nat × Nat)
  follows : Nat → Int

/-- The `removeFromLibrary` transaction: look up the entry; when absent the
transaction throws and changes nothing; otherwise delete the entry and apply
the clamped decrement to the owning series. -/
def removeFromLibrary (st : LibState) (entryId : Nat) : LibState :=
  match st.entries.find? (fun e => e.1 == entryId) with
  | none => st
  | some e =>
    { entries := st.entries.filter (fun e2 => !(e2.1 == entryId))
      follows := fun sid => if sid = e.2 then decrementFollows (st.follows sid) else st.follows sid }

/-! ## Chapter ingestion engine (claim C2)

The ingestion processor `processChapterIngest` itself is not in the tree
(only its integration tests are), so the engine is modelled from the spec,
section 4.4. -/

/-- A canonical, deduplicated logical chapter, unique by
(series_id, chapter_number); chapter numbers are decimals. -/
structure LogicalChapter where
  id : Nat
  seriesId : Nat
  chapterNumber : Rat
  deriving DecidableEq

/-- A ChapterSource binding between a logical chapter and one series source,
keyed by (seriesSourceId, sourceChapterId). -/
structure ChapterSourceRow where
  seriesSourceId : Nat
  sourceChapterId : Nat
  chapterId : Nat
  title : String
  url : String
  deriving DecidableEq

/-- One feed row per logical chapter. -/
structure FeedEntryRow where
  chapterId : Nat
  deriving DecidableEq

/-- The tables the ingestion engine touches, plus an id allocator. -/
structure IngestState where
  logicalChapters : List LogicalChapter
  chapterSources : List ChapterSourceRow
  feedEntries : List FeedEntryRow
  nextId : Nat
  deriving DecidableEq

def emptyIngestState : IngestState := ⟨[], [], [], 0⟩

/-- One normalized chapter report from one source. -/
structure ChapterReport where
  seriesSourceId : Nat
  seriesId : Nat
  chapterNumber : Option Rat
  sourceChapterId : Nat
  title : String
  url : String
  deriving DecidableEq

/-- The sentinel chapter number standing for "no chapter number available". -/
def NO_NUMBER_SENTINEL : Rat := -1

def reportNumber (r : ChapterReport) : Rat :=
  r.chapterNumber.getD NO_NUMBER_SENTINEL

/-- Modelled from the spec: steps 2 and 3 of ingestion once the logical
chapter is resolved: re-ingesting an existing (seriesSourceId,
sourceChapterId) key updates its fields rather than duplicating, a new key
appends one binding, and one FeedEntry is created only when the logical
chapter has none yet. -/
def ingestWithChapter (st : IngestState) (r : ChapterReport) (lc : LogicalChapter) :
    IngestState :=
  let st2 : IngestState :=
    if st.chapterSources.any (fun cs =>
        cs.seriesSourceId == r.seriesSourceId && cs.sourceChapterId == r.sourceChapterId) then
      { st with chapterSources := st.chapterSources.map (fun cs =>
          if cs.seriesSourceId == r.seriesSourceId && cs.sourceChapterId == r.sourceChapterId then
            { cs with title := r.title, url := r.url }
          else cs) }
    else
      { st with chapterSources :=
          st.chapterSources ++ [⟨r.seriesSourceId, r.sourceChapterId, lc.id, r.title, r.url⟩] }
  if st2.feedEntries.any (fun f => f.chapterId == lc.id) then st2
  else { st2 with feedEntries := st2.feedEntries ++ [⟨lc.id⟩] }

/-- Modelled from the spec: one ingestion call (the Chapter Ingestion Engine,
whose processor is not in the tree): resolve or create the LogicalChapter
keyed by (seriesId, chapterNumber or the sentinel), then run the
ChapterSource and FeedEntry steps. -/
def processChapterIngest (st : IngestState) (r : ChapterReport) : IngestState :=
  let num := reportNumber r
  match st.logicalChapters.find? (fun lc =>
      lc.seriesId == r.seriesId && decide (lc.chapterNumber = num)) with
  | some lc => ingestWithChapter st r lc
  | none =>
    let lc : LogicalChapter := ⟨st.nextId, r.seriesId, num⟩
    ingestWithChapter
      { st with logicalChapters := st.logicalChapters ++ [lc], nextId := st.nextId + 1 }
      r lc

/-- The state reached by ingesting, from scratch, the reports `rs`, all for
the same series and chapter number: one logical chapter, one ChapterSource
binding per report and a single feed entry. -/
def canonicalIngest (seriesId : Nat) (num : Rat) (rs : List ChapterReport) : IngestState :=
  { logicalChapters := [⟨0, seriesId, num⟩]
    chapterSources := rs.map (fun r =>
      ⟨r.seriesSourceId, r.sourceChapterId, 0, r.title, r.url⟩)
    feedEntries := [⟨0⟩]
    nextId := 1 }

def ingestKey (r : ChapterReport) : Nat × Nat := (r.seriesSourceId, r.sourceChapterId)

/-! ## Crawl scheduler (claim C7)

The master scheduler is not in the tree (only its integration tests are), so
its selection is modelled from the spec, section 4.3. -/

inductive Tier
  | A
  | B
  | C
  deriving DecidableEq

structure SchedSeries where
  id : Nat
  tier : Tier
  deriving DecidableEq

structure SchedSource where
  id : Nat
  seriesId : Nat
  nextCheckAt : Int
  failureCount : Nat
  deriving DecidableEq

def FAILURE_CEILING : Nat := 5

def seriesTier (tbl : List SchedSeries) (sid : Nat) : Option Tier :=
  (tbl.find? (fun se => se.id == sid)).map SchedSeries.tier

/-- Modelled from the spec: the Crawl Scheduler's selection: SeriesSource
rows that are due (next_check_at at or before now), below the failure
ceiling, and whose owning series' tier is A or B — tier C is excluded
unconditionally. -/
def selectDueSources (tbl : List SchedSeries) (sources : List SchedSource)
    (now : Int) : List SchedSource :=
  sources.filter (fun s =>
    decide (s.nextCheckAt ≤ now) && s.failureCount < FAILURE_CEILING &&
      match seriesTier tbl s.seriesId with
      | some Tier.A => true
      | some Tier.B => true
      | _ => false)

def BACKLOG_CEILING : Nat := 10000

/-- Modelled from the spec: one run of the master scheduler enqueues nothing
at all when the crawl queue backlog exceeds the ceiling, and otherwise
batch-enqueues exactly the selected due sources. -/
def runMasterScheduler (backlog : Nat) (tbl : List SchedSeries)
    (sources : List SchedSource) (now : Int) : List SchedSource :=
  if BACKLOG_CEILING < backlog then [] else selectDueSources tbl sources now

/-! ## Gap recovery detector (claim C8)

The gap-recovery processor is not in the tree (only its integration tests
are), so it is modelled from the spec, section 4.5. -/

/-- The integer chapter numbers among a series' non-sentinel logical chapter
numbers; non-integer numbers (e.g. 10.5) are ignored. -/
def integerChapters (nums : List Rat) : List Int :=
  (nums.filter (fun q => !(decide (q = NO_NUMBER_SENTINEL)))).filterMap
    (fun q => if q.den = 1 then some q.num else none)

/-- The integers strictly between `m` and `M` that are absent from `ints`. -/
def gapsBetween (ints : List Int) (m M : Int) : List Int :=
  ((List.range (M - m).toNat).map (fun j : Nat => m + 1 + (j : Int))).filter
    (fun k => !(decide (k ∈ ints)))

/-- Modelled from the spec: every missing integer strictly between the
minimum and maximum observed integer chapter number. -/
def gapList (nums : List Rat) : List Int :=
  let ints := integerChapters nums
  match ints.min?, ints.max? with
  | some m, some M => gapsBetween ints m M
  | _, _ => []

inductive GapResult
  | noop
  | triggered (gapCount : Nat) (sourceCount : Nat)
  deriving DecidableEq

/-- Modelled from the spec: the gap-recovery run for one series: a no-op
when there are no gaps; otherwise it selects the healthy sources
(failure_count below the ceiling), enqueues one targeted re-crawl per
healthy source, and reports the gap and source counts. -/
def processGapRecovery (nums : List Rat) (sources : List SchedSource) :
    GapResult × List Nat :=
  let gaps := gapList nums
  if gaps.isEmpty then (GapResult.noop, [])
  else
    let healthy := sources.filter (fun s => s.failureCount < FAILURE_CEILING)
    (GapResult.triggered gaps.length healthy.length, healthy.map SchedSource.id)

/-! ## Prisma soft-delete extension (claim C10)

Embedding of `prismaClientSingleton`'s query extension: for the models in
`SOFT_DELETE_MODELS`, deletes become updates that stamp `deleted_at`, reads
and updates filter on `deleted_at: null`, and upserts skip that filter but
force `deleted_at: null` on their update branch.  A table is a list of rows;
operations that Prisma rejects (update or delete matching no row) return
`Except.error`. -/

structure DbRow (α : Type) where
  id : Nat
  deleted_at : Option Int
  data : α
  deriving DecidableEq

def SOFT_DELETE_MODELS : List String := ["User", "Series", "Chapter", "LibraryEntry"]

def isSoftDeleteModel (m : String) : Bool := SOFT_DELETE_MODELS.contains m

/-- The rows visible through the extension's liveness filter. -/
def liveRows {α : Type} (t : List (DbRow α)) : List (DbRow α) :=
  t.filter (fun r => r.deleted_at == none)

/-- `findUnique`: the extension adds `deleted_at: null` to the where clause
of soft-delete models. -/
def findUniqueOp {α : Type} (m : String) (t : List (DbRow α)) (i : Nat) :
    Option (DbRow α) :=
  if isSoftDeleteModel m then t.find? (fun r => r.id == i && r.deleted_at == none)
  else t.find? (fun r => r.id == i)

/-- `findFirst` with an arbitrary where predicate. -/
def findFirstOp {α : Type} (m : String) (t : List (DbRow α)) (p : DbRow α → Bool) :
    Option (DbRow α) :=
  if isSoftDeleteModel m then t.find? (fun r => p r && r.deleted_at == none)
  else t.find? p

/-- `findMany` with an arbitrary where predicate. -/
def findManyOp {α : Type} (m : String) (t : List (DbRow α)) (p : DbRow α → Bool) :
    List (DbRow α) :=
  if isSoftDeleteModel m then t.filter (fun r => p r && r.deleted_at == none)
  else t.filter p

/-- `count` counts the rows `findMany` would return. -/
def countOp {α : Type} (m : String) (t : List (DbRow α)) (p : DbRow α → Bool) : Nat :=
  (findManyOp m t p).length

/-- An `aggregate` (modelled as a sum over a projection) ranges over the rows
the filtered where clause selects. -/
def aggregateSumOp {α : Type} (m : String) (t : List (DbRow α)) (p : DbRow α → Bool)
    (g : α → Int) : Int :=
  ((findManyOp m t p).map (fun r => g r.data)).sum

/-- A `groupBy` (modelled as the list of distinct group keys) ranges over the
rows the filtered where clause selects. -/
def groupByOp {α : Type} (m : String) (t : List (DbRow α)) (p : DbRow α → Bool)
    (key : α → Nat) : List Nat :=
  ((findManyOp m t p).map (fun r => key r.data)).dedup

/-- `update` by id: the extension adds `deleted_at: null` to the where clause
of soft-delete models, and Prisma throws (P2025) when no row matches. -/
def updateOp {α : Type} (m : String) (t : List (DbRow α)) (i : Nat) (f : α → α) :
    Except Unit (List (DbRow α)) :=
  if isSoftDeleteModel m then
    if t.any (fun r => r.id == i && r.deleted_at == none) then
      Except.ok (t.map (fun r =>
        if r.id == i && r.deleted_at == none then { r with data := f r.data } else r))
    else Except.error ()
  else
    if t.any (fun r => r.id == i) then
      Except.ok (t.map (fun r => if r.id == i then { r with data := f r.data } else r))
    else Except.error ()

/-- `delete` by id: for soft-delete models the extension rewrites it into an
update stamping `deleted_at` with the current time, issued on the base client
(so it reaches even an already-soft-deleted row); other models are removed
physically.  Prisma throws when no row has the id. -/
def deleteOp {α : Type} (m : String) (now : Int) (t : List (DbRow α)) (i : Nat) :
    Except Unit (List (DbRow α)) :=
  if t.any (fun r => r.id == i) then
    if isSoftDeleteModel m then
      Except.ok (t.map (fun r =>
        if r.id == i then { r with deleted_at := some now } else r))
    else
      Except.ok (t.filter (fun r => !(r.id == i)))
  else Except.error ()

/-- `deleteMany`: rewritten into `updateMany` stamping `deleted_at` for
soft-delete models; no error when nothing matches. -/
def deleteManyOp {α : Type} (m : String) (now : Int) (t : List (DbRow α))
    (p : DbRow α → Bool) : List (DbRow α) :=
  if isSoftDeleteModel m then
    t.map (fun r => if p r then { r with deleted_at := some now } else r)
  else t.filter (fun r => !(p r))

/-- `upsert` by id: the where clause is deliberately NOT filtered on
liveness, so a soft-deleted row is found and updated; the extension forces
`deleted_at: null` into the update branch (resurrection). -/
def upsertOp {α : Type} (m : String) (t : List (DbRow α)) (i : Nat) (f : α → α)
    (c : α) : List (DbRow α) :=
  if t.any (fun r => r.id == i) then
    if isSoftDeleteModel m then
      t.map (fun r =>
        if r.id == i then { r with data := f r.data, deleted_at := none } else r)
    else
      t.map (fun r => if r.id == i then { r with data := f r.data } else r)
  else t ++ [⟨i, none, c⟩]

/-- C1: the stored read-state for a (user, logical chapter) key is decided by
last-writer-wins on the client timestamp `updated_at`: the incoming row
overwrites the stored row exactly when its `updated_at` is strictly greater,
or equal with a strictly earlier `server_received_at`; in particular, when
the client timestamps are equal and the incoming row was received no earlier
than the stored one, the stored (first-received) row wins. -/
theorem progress_lww_tiebreak (e s : ReadRow) :
    (lwwCondition e s = true ↔
      s.updated_at < e.updated_at ∨
        (e.updated_at = s.updated_at ∧ e.server_received_at < s.server_received_at))
    ∧ (lwwCondition e s = true → upsertReadRow e (some s) = overwriteRead e s)
    ∧ (lwwCondition e s = false → upsertReadRow e (some s) = s)
    ∧ (e.updated_at = s.updated_at → s.server_received_at ≤ e.server_received_at →
        upsertReadRow e (some s) = s) := by
  refine ⟨?_, ?_, ?_, ?_⟩
  · simp [lwwCondition]
  · intro h; simp [upsertReadRow, h]
  · intro h; simp [upsertReadRow, h]
  · intro h1 h2
    have h3 : ¬ s.updated_at < e.updated_at := by omega
    have h4 : ¬ e.server_received_at < s.server_received_at := by omega
    have hc : lwwCondition e s = false := by
      simp [lwwCondition, h3, h4]
    simp [upsertReadRow, hc]

theorem progress_lww_tiebreak_witness :
    upsertReadRow ⟨true, 10, 10, 7, 1, 1⟩ (some ⟨true, 10, 10, 3, 2, 2⟩) =
      ⟨true, 10, 10, 3, 2, 2⟩ :=
  (progress_lww_tiebreak ⟨true, 10, 10, 7, 1, 1⟩ ⟨true, 10, 10, 3, 2, 2⟩).2.2.2
    rfl (by decide)

theorem processSequential_calls (env : Nat → SeqOutcome) :
    ∀ (l ob : List SyncAction), (∀ a ∈ l, a.retryCount < MAX_RETRIES) →
      (processSequential env ob l).2 = l.map NetCall.seqCall := by
  intro l
  induction l with
  | nil => intro ob _; rfl
  | cons a rest ih =>
    intro ob h
    have hna : ¬ MAX_RETRIES ≤ a.retryCount :=
      Nat.not_le.mpr (h a (List.mem_cons_self a rest))
    simp only [processSequential, if_neg hna, List.map_cons]
    exact congrArg _ (ih _ (fun b hb => h b (List.mem_cons_of_mem a hb)))

theorem processSequential_call_shape (env : Nat → SeqOutcome) :
    ∀ (l ob : List SyncAction) (c : NetCall), c ∈ (processSequential env ob l).2 →
      ∃ b ∈ l, b.retryCount < MAX_RETRIES ∧ c = NetCall.seqCall b := by
  intro l
  induction l with
  | nil => intro ob c hc; simp [processSequential] at hc
  | cons a rest ih =>
    intro ob c hc
    by_cases ha : MAX_RETRIES ≤ a.retryCount
    · rw [processSequential, if_pos ha] at hc
      obtain ⟨b, hb, h1, h2⟩ := ih _ c hc
      exact ⟨b, List.mem_cons_of_mem a hb, h1, h2⟩
    · simp only [processSequential, if_neg ha] at hc
      rcases List.mem_cons.mp hc with h | h
      · exact ⟨a, List.mem_cons_self a rest, Nat.not_le.mp ha, h⟩
      · obtain ⟨b, hb, h1, h2⟩ := ih _ c h
        exact ⟨b, List.mem_cons_of_mem a hb, h1, h2⟩

theorem batchPhase_calls (batch : BatchOutcome) (outbox cr : List SyncAction) :
    (batchPhase batch outbox cr).2 =
      if cr.isEmpty then [] else [NetCall.batchReplay cr] := by
  unfold batchPhase
  cases batch with
  | ok results => by_cases h : cr.isEmpty <;> simp [h]
  | err => by_cases h : cr.isEmpty <;> simp [h]

theorem processOutbox_calls (batch : BatchOutcome) (env : Nat → SeqOutcome)
    (outbox : List SyncAction) :
    (processOutbox batch env outbox).2 =
      (batchPhase batch outbox
          ((sortByTimestamp outbox).filter (fun a => a.type == ActionType.CHAPTER_READ))).2
        ++ (processSequential env
              (batchPhase batch outbox
                ((sortByTimestamp outbox).filter
                  (fun a => a.type == ActionType.CHAPTER_READ))).1
              ((sortByTimestamp outbox).filter
                (fun a => !(a.type == ActionType.CHAPTER_READ)))).2 := by
  by_cases h : outbox.isEmpty
  · have he : outbox = [] := by
      cases outbox with
      | nil => rfl
      | cons x xs => simp at h
    subst he; rfl
  · simp only [processOutbox, if_neg h]

/-- C4: one drain pass snapshots the pending actions and sorts them by client
timestamp ascending (a permutation of the outbox, stably sorted); all
CHAPTER_READ actions are sent to the server as a single batch request, and
every other action (below the retry ceiling) is replayed sequentially, one
request per action, in that timestamp order. -/
theorem outbox_sort_partition_replay (batch : BatchOutcome) (env : Nat → SeqOutcome)
    (outbox : List SyncAction)
    (h : ∀ a ∈ outbox, a.type ≠ ActionType.CHAPTER_READ → a.retryCount < MAX_RETRIES) :
    List.Pairwise tsLe (sortByTimestamp outbox)
    ∧ (sortByTimestamp outbox).Perm outbox
    ∧ ((sortByTimestamp outbox).filter (fun a => a.type == ActionType.CHAPTER_READ)).Perm
        (outbox.filter (fun a => a.type == ActionType.CHAPTER_READ))
    ∧ (processOutbox batch env outbox).2 =
        (if ((sortByTimestamp outbox).filter
              (fun a => a.type == ActionType.CHAPTER_READ)).isEmpty
          then []
          else [NetCall.batchReplay
            ((sortByTimestamp outbox).filter (fun a => a.type == ActionType.CHAPTER_READ))])
        ++ ((sortByTimestamp outbox).filter
              (fun a => !(a.type == ActionType.CHAPTER_READ))).map NetCall.seqCall := by
  have hperm : (sortByTimestamp outbox).Perm outbox := List.perm_insertionSort tsLe outbox
  refine ⟨List.sorted_insertionSort tsLe outbox, hperm, hperm.filter _, ?_⟩
  rw [processOutbox_calls, batchPhase_calls]
  refine congrArg _ ?_
  apply processSequential_calls
  intro a ha
  have h1 : a ∈ sortByTimestamp outbox := List.mem_of_mem_filter ha
  have h2 := List.of_mem_filter ha
  refine h a (hperm.mem_iff.mp h1) ?_
  simpa using h2

theorem outbox_sort_partition_replay_witness :
    (processOutbox BatchOutcome.err (fun _ => SeqOutcome.status 200)
        [⟨1, ActionType.CHAPTER_READ, 5, 0⟩, ⟨2, ActionType.LIBRARY_ADD, 3, 0⟩,
          ⟨3, ActionType.CHAPTER_READ, 1, 0⟩]).2 =
      [NetCall.batchReplay
          [⟨3, ActionType.CHAPTER_READ, 1, 0⟩, ⟨1, ActionType.CHAPTER_READ, 5, 0⟩],
        NetCall.seqCall ⟨2, ActionType.LIBRARY_ADD, 3, 0⟩] := by
  have h := outbox_sort_partition_replay BatchOutcome.err (fun _ => SeqOutcome.status 200)
    [⟨1, ActionType.CHAPTER_READ, 5, 0⟩, ⟨2, ActionType.LIBRARY_ADD, 3, 0⟩,
      ⟨3, ActionType.CHAPTER_READ, 1, 0⟩] (by decide)
  rw [h.2.2.2]
  decide

/-- C3 counterexample: a CHAPTER_READ action whose retry count is at the
ceiling (5) is still sent to the server: the drain pass issues the batch
request with that action in its body, so the retry ceiling does NOT suppress
server contact on the batch path. -/
theorem retry_ceiling_batch_counterexample :
    (processOutbox (BatchOutcome.ok []) (fun _ => SeqOutcome.threw)
        [⟨1, ActionType.CHAPTER_READ, 0, 5⟩]).2 =
      [NetCall.batchReplay [⟨1, ActionType.CHAPTER_READ, 0, 5⟩]] := by
  decide

/-- C3 (amended): an outbox action at or above the retry ceiling is skipped
without a network call on the sequential path, i.e. for every non-CHAPTER_READ
action type; CHAPTER_READ actions go through the batch request regardless of
their retry count.  No sequential request is ever issued for such an action
and it never appears in a batch request body. -/
theorem retry_ceiling_amended (batch : BatchOutcome) (env : Nat → SeqOutcome)
    (outbox : List SyncAction) (a : SyncAction)
    (hr : MAX_RETRIES ≤ a.retryCount) (ht : a.type ≠ ActionType.CHAPTER_READ) :
    NetCall.seqCall a ∉ (processOutbox batch env outbox).2
    ∧ ∀ l, NetCall.batchReplay l ∈ (processOutbox batch env outbox).2 → a ∉ l := by
  rw [processOutbox_calls, batchPhase_calls]
  constructor
  · intro hmem
    rcases List.mem_append.mp hmem with hcase | hcase
    · by_cases hcr : ((sortByTimestamp outbox).filter
          (fun a => a.type == ActionType.CHAPTER_READ)).isEmpty
      · rw [if_pos hcr] at hcase
        exact absurd hcase (List.not_mem_nil _)
      · rw [if_neg hcr] at hcase
        simp at hcase
    · obtain ⟨b, _, hlt, heq⟩ := processSequential_call_shape env _ _ _ hcase
      injection heq with hab
      subst hab
      exact absurd hlt (Nat.not_lt.mpr hr)
  · intro l hl
    rcases List.mem_append.mp hl with hcase | hcase
    · by_cases hcr : ((sortByTimestamp outbox).filter
          (fun a => a.type == ActionType.CHAPTER_READ)).isEmpty
      · rw [if_pos hcr] at hcase
        exact absurd hcase (List.not_mem_nil _)
      · rw [if_neg hcr] at hcase
        have hlcr : l = (sortByTimestamp outbox).filter
            (fun a => a.type == ActionType.CHAPTER_READ) := by
          simpa using hcase
        subst hlcr
        intro hal
        have := List.of_mem_filter hal
        exact ht (by simpa using this)
    · obtain ⟨b, _, _, heq⟩ := processSequential_call_shape env _ _ _ hcase
      simp at heq

theorem retry_ceiling_amended_witness :
    NetCall.seqCall ⟨9, ActionType.LIBRARY_ADD, 0, 5⟩ ∉
      (processOutbox (BatchOutcome.ok []) (fun _ => SeqOutcome.threw)
        [⟨9, ActionType.LIBRARY_ADD, 0, 5⟩]).2 :=
  (retry_ceiling_amended (BatchOutcome.ok []) (fun _ => SeqOutcome.threw)
    [⟨9, ActionType.LIBRARY_ADD, 0, 5⟩] ⟨9, ActionType.LIBRARY_ADD, 0, 5⟩
    (by decide) (by decide)).1

theorem lookup_eq_none_of_not_mem_keys (i : Nat) (rs : List (Nat × Bool))
    (h : i ∉ rs.map Prod.fst) : rs.lookup i = none := by
  induction rs with
  | nil => rfl
  | cons r rest ih =>
    obtain ⟨k, v⟩ := r
    simp only [List.map_cons, List.mem_cons] at h
    push_neg at h
    have hk : (i == k) = false := beq_eq_false_iff_ne.mpr h.1
    simp [List.lookup, hk, ih h.2]

theorem filterMap_batchFate_nil (l : List SyncAction) :
    l.filterMap (batchFate []) = l := by
  induction l with
  | nil => rfl
  | cons a rest ih => simp [List.filterMap_cons, batchFate, List.lookup, ih]

theorem batch_step_filterMap_true (k : Nat) (rs : List (Nat × Bool))
    (outbox : List SyncAction) :
    (dequeue outbox k).filterMap (batchFate rs)
      = outbox.filterMap (batchFate ((k, true) :: rs)) := by
  induction outbox with
  | nil => rfl
  | cons a l ih =>
    by_cases hid : a.id = k
    · have hb : (a.id == k) = true := beq_iff_eq.mpr hid
      have h2 : batchFate ((k, true) :: rs) a = none := by
        simp [batchFate, List.lookup, hb]
      simp only [dequeue, List.filter_cons, hb, Bool.not_true, List.filterMap_cons, h2]
      simp only [dequeue] at ih
      simpa using ih
    · have hne : (a.id == k) = false := beq_eq_false_iff_ne.mpr hid
      have hsame : batchFate ((k, true) :: rs) a = batchFate rs a := by
        simp [batchFate, List.lookup, hne]
      simp only [dequeue, List.filter_cons, hne, Bool.not_false, if_pos trivial,
        List.filterMap_cons, hsame]
      simp only [dequeue] at ih
      rw [ih]

theorem batch_step_filterMap_false (k : Nat) (rs : List (Nat × Bool))
    (hk : k ∉ rs.map Prod.fst) (outbox : List SyncAction) :
    (updateRetry outbox k).filterMap (batchFate rs)
      = outbox.filterMap (batchFate ((k, false) :: rs)) := by
  induction outbox with
  | nil => rfl
  | cons a l ih =>
    by_cases hid : a.id = k
    · have hb : (a.id == k) = true := beq_iff_eq.mpr hid
      have h1 : batchFate rs { a with retryCount := a.retryCount + 1 } =
          some { a with retryCount := a.retryCount + 1 } := by
        have hlk : rs.lookup a.id = none := by
          rw [hid]; exact lookup_eq_none_of_not_mem_keys k rs hk
        simp [batchFate, hlk]
      have h2 : batchFate ((k, false) :: rs) a =
          some { a with retryCount := a.retryCount + 1 } := by
        simp [batchFate, List.lookup, hb]
      simp only [updateRetry, List.map_cons, hb, if_pos trivial, List.filterMap_cons,
        h1, h2]
      simp only [updateRetry] at ih
      rw [ih]
    · have hne : (a.id == k) = false := beq_eq_false_iff_ne.mpr hid
      have hsame : batchFate ((k, false) :: rs) a = batchFate rs a := by
        simp [batchFate, List.lookup, hne]
      simp only [updateRetry] at ih
      simp only [beq_iff_eq] at ih
      simp only [updateRetry, List.map_cons, beq_iff_eq, if_neg hid]
      simp only [List.filterMap_cons, hsame, ih]

/-- C5: applying the batch response's per-item results treats every item
independently: an item marked success is dequeued, an item marked failure has
its retry count incremented by exactly one, and an item the response does not
mention is untouched — in particular one item's failure never blocks its
siblings' dequeueing. -/
theorem batch_partial_failure_independent (results : List (Nat × Bool))
    (outbox : List SyncAction) (h : (results.map Prod.fst).Nodup) :
    applyBatchResults results outbox = outbox.filterMap (batchFate results) := by
  induction results generalizing outbox with
  | nil => simpa [applyBatchResults] using (filterMap_batchFate_nil outbox).symm
  | cons r rs ih =>
    obtain ⟨k, v⟩ := r
    simp only [List.map_cons, List.nodup_cons] at h
    obtain ⟨hk, hnd⟩ := h
    simp only [applyBatchResults, List.foldl_cons]
    cases v
    · calc List.foldl (fun ob r => if r.2 then dequeue ob r.1 else updateRetry ob r.1)
            (if (false : Bool) then dequeue outbox k else updateRetry outbox k) rs
          = applyBatchResults rs (updateRetry outbox k) := by
            simp [applyBatchResults]
        _ = (updateRetry outbox k).filterMap (batchFate rs) := ih _ hnd
        _ = outbox.filterMap (batchFate ((k, false) :: rs)) :=
            batch_step_filterMap_false k rs hk outbox
    · calc List.foldl (fun ob r => if r.2 then dequeue ob r.1 else updateRetry ob r.1)
            (if (true : Bool) then dequeue outbox k else updateRetry outbox k) rs
          = applyBatchResults rs (dequeue outbox k) := by
            simp [applyBatchResults]
        _ = (dequeue outbox k).filterMap (batchFate rs) := ih _ hnd
        _ = outbox.filterMap (batchFate ((k, true) :: rs)) :=
            batch_step_filterMap_true k rs outbox

theorem batch_partial_failure_independent_witness :
    applyBatchResults [(1, true), (2, false), (3, true)]
        [⟨1, ActionType.CHAPTER_READ, 1, 0⟩, ⟨2, ActionType.CHAPTER_READ, 2, 0⟩,
          ⟨3, ActionType.CHAPTER_READ, 3, 0⟩] =
      [⟨2, ActionType.CHAPTER_READ, 2, 1⟩] := by
  have h := batch_partial_failure_independent [(1, true), (2, false), (3, true)]
    [⟨1, ActionType.CHAPTER_READ, 1, 0⟩, ⟨2, ActionType.CHAPTER_READ, 2, 0⟩,
      ⟨3, ActionType.CHAPTER_READ, 3, 0⟩] (by decide)
  rw [h]
  decide

/-- C6 counterexample: a sequentially replayed LIBRARY_UPDATE action whose
request comes back with the idempotent-conflict status 409 is NOT treated as
success: the drain pass leaves it queued with its retry count incremented
instead of dequeueing it. -/
theorem conflict_success_counterexample :
    processOutbox BatchOutcome.err (fun _ => SeqOutcome.status 409)
        [⟨1, ActionType.LIBRARY_UPDATE, 0, 0⟩] =
      ([⟨1, ActionType.LIBRARY_UPDATE, 0, 1⟩],
        [NetCall.seqCall ⟨1, ActionType.LIBRARY_UPDATE, 0, 0⟩]) := by
  decide

/-- C6 (amended): a sequentially replayed action is dequeued exactly when its
handler reports success, and an already-applied conflict status counts as
success only for CHAPTER_READ (HTTP 409) and LIBRARY_DELETE (HTTP 404);
LIBRARY_UPDATE, LIBRARY_ADD and SETTING_UPDATE accept only 2xx responses, so
a conflict there is treated as a failure and increments the retry count. -/
theorem conflict_success_amended (a : SyncAction) (c : Nat) (env : Nat → SeqOutcome)
    (outbox : List SyncAction) (hr : a.retryCount < MAX_RETRIES)
    (henv : env a.id = SeqOutcome.status c) :
    processSequential env outbox [a] =
      (if executeActionSuccess a.type c then dequeue outbox a.id
        else updateRetry outbox a.id, [NetCall.seqCall a])
    ∧ executeActionSuccess a.type c =
        (responseOk c || (decide (a.type = ActionType.CHAPTER_READ) && c == 409)
          || (decide (a.type = ActionType.LIBRARY_DELETE) && c == 404)) := by
  constructor
  · have hna : ¬ MAX_RETRIES ≤ a.retryCount := Nat.not_le.mpr hr
    simp only [processSequential, if_neg hna, henv]
  · cases a.type <;> simp [executeActionSuccess]

theorem conflict_success_amended_witness :
    processSequential (fun _ => SeqOutcome.status 404) []
        [⟨2, ActionType.LIBRARY_DELETE, 0, 0⟩] =
      ([], [NetCall.seqCall ⟨2, ActionType.LIBRARY_DELETE, 0, 0⟩]) := by
  have h := conflict_success_amended ⟨2, ActionType.LIBRARY_DELETE, 0, 0⟩ 404
    (fun _ => SeqOutcome.status 404) [] (by decide) rfl
  rw [h.1]
  decide

theorem ingest_empty (r : ChapterReport) :
    processChapterIngest emptyIngestState r =
      canonicalIngest r.seriesId (reportNumber r) [r] := rfl

theorem ingest_fixpoint (r : ChapterReport) :
    processChapterIngest (canonicalIngest r.seriesId (reportNumber r) [r]) r =
      canonicalIngest r.seriesId (reportNumber r) [r] := by
  simp [processChapterIngest, canonicalIngest, ingestWithChapter]

theorem ingest_extend (sid : Nat) (num : Rat) (rs : List ChapterReport)
    (r : ChapterReport) (hs : r.seriesId = sid) (hn : reportNumber r = num)
    (hk : ingestKey r ∉ rs.map ingestKey) :
    processChapterIngest (canonicalIngest sid num rs) r =
      canonicalIngest sid num (rs ++ [r]) := by
  have hfind : (canonicalIngest sid num rs).logicalChapters.find? (fun lc =>
      lc.seriesId == r.seriesId && decide (lc.chapterNumber = reportNumber r)) =
      some ⟨0, sid, num⟩ := by
    simp [canonicalIngest, hs, hn]
  have hany : (canonicalIngest sid num rs).chapterSources.any (fun cs =>
      cs.seriesSourceId == r.seriesSourceId &&
        cs.sourceChapterId == r.sourceChapterId) = false := by
    rw [List.any_eq_false]
    intro cs hcs
    simp only [canonicalIngest] at hcs
    obtain ⟨y, hy, rfl⟩ := List.mem_map.mp hcs
    simp only [Bool.and_eq_true, beq_iff_eq, not_and]
    intro h1 h2
    apply hk
    simp only [List.mem_map]
    exact ⟨y, hy, by simp [ingestKey, h1, h2]⟩
  simp only [processChapterIngest, hfind]
  simp only [ingestWithChapter, hany, Bool.false_eq_true, if_false]
  simp [canonicalIngest, List.map_append]

theorem ingest_prefix_fold (sid : Nat) (num : Rat) :
    ∀ (xs p : List ChapterReport),
      (∀ y ∈ xs, y.seriesId = sid ∧ reportNumber y = num) →
      ((p ++ xs).map ingestKey).Nodup →
      xs.foldl processChapterIngest (canonicalIngest sid num p) =
        canonicalIngest sid num (p ++ xs) := by
  intro xs
  induction xs with
  | nil => intro p _ _; simp
  | cons y ys ih =>
    intro p hall hnd
    have hy := hall y (List.mem_cons_self y ys)
    have hky : ingestKey y ∉ p.map ingestKey := by
      have h1 : ((p ++ y :: ys).map ingestKey).Nodup := hnd
      rw [List.map_append, List.map_cons] at h1
      have h2 := (List.nodup_middle).mp h1
      have h3 := (List.nodup_cons).mp h2
      intro hmem
      exact h3.1 (List.mem_append.mpr (Or.inl hmem))
    have step := ingest_extend sid num p y hy.1 hy.2 hky
    calc (y :: ys).foldl processChapterIngest (canonicalIngest sid num p)
        = ys.foldl processChapterIngest
            (processChapterIngest (canonicalIngest sid num p) y) := by
          simp [List.foldl_cons]
      _ = ys.foldl processChapterIngest (canonicalIngest sid num (p ++ [y])) := by
          rw [step]
      _ = canonicalIngest sid num ((p ++ [y]) ++ ys) := by
          apply ih
          · intro z hz; exact hall z (List.mem_cons_of_mem y hz)
          · simpa using hnd
      _ = canonicalIngest sid num (p ++ y :: ys) := by
          simp

/-- C2: ingesting the same chapter report N (at least 1) times from scratch
produces exactly one ChapterSource row, one LogicalChapter and one FeedEntry;
and ingesting any number of reports for the same series and chapter number
from distinct source keys produces exactly one LogicalChapter with one
ChapterSource child per source and exactly one FeedEntry total — sources
attaching after the first never create additional feed entries. -/
theorem ingestion_idempotent_dedup (r : ChapterReport) (n : Nat)
    (rs : List ChapterReport) (sid : Nat) (num : Rat)
    (hall : ∀ y ∈ rs, y.seriesId = sid ∧ reportNumber y = num)
    (hnd : (rs.map ingestKey).Nodup) (hne : rs ≠ []) :
    ((fun st => processChapterIngest st r)^[n + 1] emptyIngestState =
      canonicalIngest r.seriesId (reportNumber r) [r])
    ∧ rs.foldl processChapterIngest emptyIngestState = canonicalIngest sid num rs
    ∧ (rs.foldl processChapterIngest emptyIngestState).chapterSources.length = rs.length
    ∧ (rs.foldl processChapterIngest emptyIngestState).logicalChapters.length = 1
    ∧ (rs.foldl processChapterIngest emptyIngestState).feedEntries.length = 1 := by
  have hfold : rs.foldl processChapterIngest emptyIngestState = canonicalIngest sid num rs := by
    cases rs with
    | nil => exact absurd rfl hne
    | cons x xs =>
      have hx := hall x (List.mem_cons_self x xs)
      calc (x :: xs).foldl processChapterIngest emptyIngestState
          = xs.foldl processChapterIngest (processChapterIngest emptyIngestState x) := by
            simp [List.foldl_cons]
        _ = xs.foldl processChapterIngest (canonicalIngest sid num [x]) := by
            rw [ingest_empty, hx.1, hx.2]
        _ = canonicalIngest sid num ([x] ++ xs) :=
            ingest_prefix_fold sid num xs [x]
              (fun z hz => hall z (List.mem_cons_of_mem x hz)) (by simpa using hnd)
        _ = canonicalIngest sid num (x :: xs) := by simp
  refine ⟨?_, hfold, ?_, ?_, ?_⟩
  · induction n with
    | zero => simpa using ingest_empty r
    | succ m ihm =>
      rw [Function.iterate_succ_apply']
      rw [ihm]
      exact ingest_fixpoint r
  · rw [hfold]; simp [canonicalIngest]
  · rw [hfold]; simp [canonicalIngest]
  · rw [hfold]; simp [canonicalIngest]

theorem ingestion_idempotent_dedup_witness :
    ((fun st => processChapterIngest st ⟨10, 1, some 1, 100, "Dawn", "u1"⟩)^[3]
        emptyIngestState =
      canonicalIngest 1 1 [⟨10, 1, some 1, 100, "Dawn", "u1"⟩])
    ∧ [⟨10, 1, some 1, 100, "Dawn", "u1"⟩,
        (⟨20, 1, some 1, 200, "Romance Dawn", "u2"⟩ : ChapterReport)].foldl
          processChapterIngest emptyIngestState =
        canonicalIngest 1 1 [⟨10, 1, some 1, 100, "Dawn", "u1"⟩,
          ⟨20, 1, some 1, 200, "Romance Dawn", "u2"⟩] := by
  have h := ingestion_idempotent_dedup ⟨10, 1, some 1, 100, "Dawn", "u1"⟩ 2
    [⟨10, 1, some 1, 100, "Dawn", "u1"⟩, ⟨20, 1, some 1, 200, "Romance Dawn", "u2"⟩]
    1 1 (by decide) (by decide) (by decide)
  exact ⟨h.1, h.2.1⟩

/-- C7: a SeriesSource whose owning series has catalog tier C is never
present in the scheduler's enqueued batch, regardless of its next_check_at;
every enqueued source is due (next_check_at at or before now) and belongs to
a tier A or tier B series. -/
theorem tier_c_never_enqueued (backlog : Nat) (tbl : List SchedSeries)
    (sources : List SchedSource) (now : Int) :
    (∀ s ∈ runMasterScheduler backlog tbl sources now,
      s.nextCheckAt ≤ now ∧
        (seriesTier tbl s.seriesId = some Tier.A ∨ seriesTier tbl s.seriesId = some Tier.B))
    ∧ ∀ s : SchedSource, seriesTier tbl s.seriesId = some Tier.C →
        s ∉ runMasterScheduler backlog tbl sources now := by
  have hmain : ∀ s ∈ selectDueSources tbl sources now,
      s.nextCheckAt ≤ now ∧
        (seriesTier tbl s.seriesId = some Tier.A ∨
          seriesTier tbl s.seriesId = some Tier.B) := by
    intro s hs
    have hp := List.of_mem_filter hs
    simp only [Bool.and_eq_true, decide_eq_true_eq] at hp
    obtain ⟨⟨h1, _⟩, h3⟩ := hp
    refine ⟨h1, ?_⟩
    revert h3
    cases htier : seriesTier tbl s.seriesId with
    | none => simp
    | some t => cases t <;> simp
  have hsub : ∀ s ∈ runMasterScheduler backlog tbl sources now,
      s ∈ selectDueSources tbl sources now := by
    intro s hs
    unfold runMasterScheduler at hs
    by_cases hb : BACKLOG_CEILING < backlog
    · rw [if_pos hb] at hs; exact absurd hs (List.not_mem_nil _)
    · rwa [if_neg hb] at hs
  constructor
  · intro s hs
    exact hmain s (hsub s hs)
  · intro s hC hs
    rcases (hmain s (hsub s hs)).2 with h | h <;> rw [hC] at h <;> exact Option.noConfusion h (fun he => Tier.noConfusion he)

theorem tier_c_never_enqueued_witness :
    (⟨2, 2, -1000, 0⟩ : SchedSource) ∉
      runMasterScheduler 0 [⟨1, Tier.A⟩, ⟨2, Tier.C⟩]
        [⟨1, 1, -1000, 0⟩, ⟨2, 2, -1000, 0⟩] 0 :=
  (tier_c_never_enqueued 0 [⟨1, Tier.A⟩, ⟨2, Tier.C⟩]
    [⟨1, 1, -1000, 0⟩, ⟨2, 2, -1000, 0⟩] 0).2 ⟨2, 2, -1000, 0⟩ (by decide)

/-- C8: gap detection reports exactly the missing integers strictly between
the minimum and maximum observed integer chapter number (so chapters
1, 2, 5, 10 yield the six gaps 3, 4, 6, 7, 8, 9 and chapters 1, 2, 3 yield
none); with at least one gap the run returns the triggered status carrying
the gap count and the healthy-source count and enqueues one re-crawl per
healthy source (failure_count below 5), and with no gaps it is a no-op. -/
theorem gap_detection (nums : List Rat) (sources : List SchedSource) (k : Int) :
    (k ∈ gapList nums ↔ ∃ m M, (integerChapters nums).min? = some m ∧
        (integerChapters nums).max? = some M ∧ m < k ∧ k < M ∧
          k ∉ integerChapters nums)
    ∧ gapList [1, 2, 5, 10] = [3, 4, 6, 7, 8, 9]
    ∧ gapList [1, 2, 3] = []
    ∧ (gapList nums = [] → processGapRecovery nums sources = (GapResult.noop, []))
    ∧ (gapList nums ≠ [] → processGapRecovery nums sources =
        (GapResult.triggered (gapList nums).length
            (sources.filter (fun s => s.failureCount < FAILURE_CEILING)).length,
          (sources.filter (fun s => s.failureCount < FAILURE_CEILING)).map
            SchedSource.id)) := by
  have hsplit : ∀ m M, (integerChapters nums).min? = some m →
      (integerChapters nums).max? = some M →
      gapList nums = gapsBetween (integerChapters nums) m M := by
    intro m M h1 h2
    simp only [gapList]
    rw [h1, h2]
  have hnone : (integerChapters nums).min? = none → gapList nums = [] := by
    intro h1
    simp only [gapList]
    rw [h1]
  refine ⟨?_, by decide, by decide, ?_, ?_⟩
  · cases hmin : (integerChapters nums).min? with
    | none =>
      rw [hnone hmin]
      simp [hmin]
    | some m =>
      cases hmax : (integerChapters nums).max? with
      | none =>
        rw [List.max?_eq_none_iff] at hmax
        rw [hmax] at hmin
        simp at hmin
      | some M =>
        rw [hsplit m M hmin hmax]
        unfold gapsBetween
        have hm_mem : m ∈ integerChapters nums :=
          List.min?_mem (fun a b => min_choice a b) hmin
        have hM_mem : M ∈ integerChapters nums :=
          List.max?_mem (fun a b => max_choice a b) hmax
        have hub : ∀ b ∈ integerChapters nums, b ≤ M :=
          (List.max?_le_iff (fun a b c => max_le_iff) hmax).mp (le_refl M)
        have hmM : m ≤ M := hub m hm_mem
        simp only [List.mem_filter, List.mem_map, List.mem_range,
          Bool.not_eq_true', decide_eq_false_iff_not, hmin, hmax, Option.some.injEq]
        constructor
        · rintro ⟨⟨j, hj, rfl⟩, hnot⟩
          refine ⟨m, M, rfl, rfl, by omega, ?_, hnot⟩
          have hne : m + 1 + (j : Int) ≠ M := fun he => hnot (he ▸ hM_mem)
          omega
        · rintro ⟨m2, M2, hm2, hM2, h1, h2, h3⟩
          obtain rfl : m = m2 := hm2
          obtain rfl : M = M2 := hM2
          exact ⟨⟨(k - m - 1).toNat, by omega, by omega⟩, h3⟩
  · intro h
    simp [processGapRecovery, h]
  · intro h
    have hf : (gapList nums).isEmpty = false := by
      cases hgl : gapList nums with
      | nil => exact absurd hgl h
      | cons a l => rfl
    simp [processGapRecovery, hf]

theorem gap_detection_witness :
    gapList [1, 2, 5, 10] = [3, 4, 6, 7, 8, 9]
    ∧ processGapRecovery [1, 2, 5, 10] [⟨7, 1, 0, 0⟩, ⟨8, 1, 0, 6⟩] =
        (GapResult.triggered 6 1, [7]) := by
  have h := gap_detection [1, 2, 5, 10] [⟨7, 1, 0, 0⟩, ⟨8, 1, 0, 6⟩] 3
  refine ⟨h.2.1, ?_⟩
  have h5 := h.2.2.2.2 (by decide)
  rw [h5]
  decide

/-- C10: for every soft-delete model, a delete never removes the row — it
becomes an update stamping `deleted_at` — after which the row is invisible to
`findUnique` and `count`, an `update` targeting it matches nothing and fails,
and an `upsert` still finds it and clears `deleted_at` on its update branch
(resurrection); `deleteMany` preserves every row, reads (`findUnique`,
`findFirst`, `findMany`) return only rows with `deleted_at` null, and
`aggregate` and `groupBy` are insensitive to soft-deleted rows. -/
theorem soft_delete_extension (m : String) (α : Type) (t : List (DbRow α))
    (i : Nat) (now : Int) (p : DbRow α → Bool) (f : α → α) (c : α) (g : α → Int)
    (key : α → Nat) (hm : isSoftDeleteModel m = true) :
    (∀ t', deleteOp m now t i = Except.ok t' →
      t'.length = t.length
      ∧ (∀ r ∈ t, r.id = i → (⟨r.id, some now, r.data⟩ : DbRow α) ∈ t')
      ∧ findUniqueOp m t' i = none
      ∧ countOp m t' (fun r => r.id == i) = 0
      ∧ updateOp m t' i f = Except.error ()
      ∧ (∀ r ∈ t, r.id = i → (⟨r.id, none, f r.data⟩ : DbRow α) ∈ upsertOp m t' i f c))
    ∧ (deleteManyOp m now t p).length = t.length
    ∧ (∀ r, findUniqueOp m t i = some r → r.deleted_at = none)
    ∧ (∀ r, findFirstOp m t p = some r → r.deleted_at = none)
    ∧ (∀ r ∈ findManyOp m t p, r.deleted_at = none)
    ∧ aggregateSumOp m t p g = aggregateSumOp m (liveRows t) p g
    ∧ groupByOp m t p key = groupByOp m (liveRows t) p key := by
  have hff : ∀ q : DbRow α → Bool,
      t.filter (fun r => q r && r.deleted_at == none) =
        (liveRows t).filter (fun r => q r && r.deleted_at == none) := by
    intro q
    unfold liveRows
    rw [List.filter_filter]
    apply List.filter_congr
    intro r _
    cases hq : q r <;> cases hd : r.deleted_at == none <;> simp [hq, hd]
  refine ⟨?_, ?_, ?_, ?_, ?_, ?_, ?_⟩
  · intro t' ht'
    by_cases hany : t.any (fun r => r.id == i) = true
    · have ht'' : t' = t.map (fun r =>
          if r.id == i then { r with deleted_at := some now } else r) := by
        unfold deleteOp at ht'
        rw [if_pos hany, if_pos hm] at ht'
        exact (Except.ok.inj ht').symm
      subst ht''
      have hnolive : ∀ x ∈ t.map (fun r =>
          if r.id == i then { r with deleted_at := some now } else r),
          ((x.id == i) && (x.deleted_at == none)) = false := by
        intro x hx
        obtain ⟨r, hr, rfl⟩ := List.mem_map.mp hx
        by_cases hid : r.id = i
        · simp [hid]
        · simp [hid]
      refine ⟨List.length_map _ _, ?_, ?_, ?_, ?_, ?_⟩
      · intro r hr hid
        refine List.mem_map.mpr ⟨r, hr, ?_⟩
        simp [hid]
      · simp only [findUniqueOp, hm, if_true]
        rw [List.find?_eq_none]
        intro x hx
        simp [hnolive x hx]
      · simp only [countOp, findManyOp, hm, if_true, List.length_eq_zero]
        rw [List.filter_eq_nil_iff]
        intro x hx
        simp [hnolive x hx]
      · have hanyf : (t.map (fun r =>
            if r.id == i then { r with deleted_at := some now } else r)).any
              (fun r => r.id == i && r.deleted_at == none) = false := by
          rw [List.any_eq_false]
          intro x hx
          simp [hnolive x hx]
        unfold updateOp
        rw [if_pos hm, hanyf]
        simp only [Bool.false_eq_true, if_false]
      · intro r hr hid
        have hmem : ({ r with deleted_at := some now } : DbRow α) ∈ t.map (fun r =>
            if r.id == i then { r with deleted_at := some now } else r) :=
          List.mem_map.mpr ⟨r, hr, by simp [hid]⟩
        have hany2 : (t.map (fun r =>
            if r.id == i then { r with deleted_at := some now } else r)).any
              (fun x => x.id == i) = true := by
          rw [List.any_eq_true]
          exact ⟨{ r with deleted_at := some now }, hmem, by simp [hid]⟩
        simp only [upsertOp, hany2, hm, if_true]
        refine List.mem_map.mpr ⟨{ r with deleted_at := some now }, hmem, ?_⟩
        simp [hid]
    · simp [deleteOp, hany] at ht'
  · simp only [deleteManyOp, hm, if_true]
    exact List.length_map _ _
  · intro r hr
    simp only [findUniqueOp, hm, if_true] at hr
    have := List.find?_some hr
    simp only [Bool.and_eq_true, beq_iff_eq] at this
    exact this.2
  · intro r hr
    simp only [findFirstOp, hm, if_true] at hr
    have := List.find?_some hr
    simp only [Bool.and_eq_true, beq_iff_eq] at this
    exact this.2
  · intro r hr
    simp only [findManyOp, hm, if_true] at hr
    have := List.of_mem_filter hr
    simp only [Bool.and_eq_true, beq_iff_eq] at this
    exact this.2
  · simp only [aggregateSumOp, findManyOp, hm, if_true]
    rw [hff p]
  · simp only [groupByOp, findManyOp, hm, if_true]
    rw [hff p]

theorem soft_delete_extension_witness :
    (deleteOp "LibraryEntry" 5 [(⟨1, none, 42⟩ : DbRow Nat)] 1 =
      Except.ok [(⟨1, some 5, 42⟩ : DbRow Nat)])
    ∧ findUniqueOp "LibraryEntry" [(⟨1, some 5, 42⟩ : DbRow Nat)] 1 = none
    ∧ updateOp "LibraryEntry" [(⟨1, some 5, 42⟩ : DbRow Nat)] 1 (fun d => d + 1) =
        Except.error ()
    ∧ (⟨1, none, 43⟩ : DbRow Nat) ∈
        upsertOp "LibraryEntry" [(⟨1, some 5, 42⟩ : DbRow Nat)] 1 (fun d => d + 1) 0 := by
  have h := soft_delete_extension "LibraryEntry" Nat [(⟨1, none, 42⟩ : DbRow Nat)] 1 5
    (fun r => r.id == 1) (fun d => d + 1) 0 (fun d => (d : Int)) (fun d => d)
    (by decide)
  have hdel : deleteOp "LibraryEntry" 5 [(⟨1, none, 42⟩ : DbRow Nat)] 1 =
      Except.ok [(⟨1, some 5, 42⟩ : DbRow Nat)] := by rfl
  have h2 := h.1 [(⟨1, some 5, 42⟩ : DbRow Nat)] hdel
  refine ⟨hdel, h2.2.2.1, h2.2.2.2.2.1, ?_⟩
  have := h2.2.2.2.2.2 ⟨1, none, 42⟩ (by decide) rfl
  simpa using this

theorem decrementFollows_nonneg (n : Int) : 0 ≤ decrementFollows n :=
  le_max_left 0 _

/-- C9: a library removal decrements the owning series' follow counter with a
floor clamp at zero, and after any sequence of removals a counter that
started non-negative is still non-negative. -/
theorem follow_count_never_negative (st : LibState) (ids : List Nat) (sid : Nat)
    (h : ∀ s, 0 ≤ st.follows s) :
    (∀ s, 0 ≤ ((ids.foldl removeFromLibrary st).follows s))
    ∧ (∀ i e, st.entries.find? (fun x => x.1 == i) = some e →
        (removeFromLibrary st i).follows e.2 = max 0 (st.follows e.2 - 1))
    ∧ 0 ≤ decrementFollows (st.follows sid) := by
  refine ⟨?_, ?_, decrementFollows_nonneg _⟩
  · have key : ∀ (l : List Nat) (t : LibState), (∀ s, 0 ≤ t.follows s) →
        ∀ s, 0 ≤ ((l.foldl removeFromLibrary t).follows s) := by
      intro l
      induction l with
      | nil => intro t ht s; exact ht s
      | cons i rest ih =>
        intro t ht s
        apply ih
        intro s2
        unfold removeFromLibrary
        cases t.entries.find? (fun e => e.1 == i) with
        | none => exact ht s2
        | some e =>
          by_cases hs : s2 = e.2
          · simpa [hs] using decrementFollows_nonneg (t.follows s2)
          · simpa [hs] using ht s2
    exact key ids st h
  · intro i e he
    simp [removeFromLibrary, he, decrementFollows]

theorem follow_count_never_negative_witness :
    (∀ s, 0 ≤ (([3, 3, 7].foldl removeFromLibrary
        ⟨[(3, 1), (7, 1)], fun _ => 1⟩).follows s))
    ∧ 0 ≤ decrementFollows 1 := by
  have h := follow_count_never_negative ⟨[(3, 1), (7, 1)], fun _ => 1⟩ [3, 3, 7] 0
    (fun _ => (by decide : (0 : Int) ≤ 1))
  exact ⟨h.1, h.2.2⟩
